import Mathlib

/-!
Verification of the falcom-sjis Shift-JIS codec (src/lib.rs).

The codec is embedded shallowly: bytes are `Nat` (all uses are guarded
to stay below 256, matching `u8`), texts are `List Char`, the Rust byte
iterator is explicit state passing of the remaining `List Nat`.

The two lookup tables `UTF8_SJIS` and `SJIS_UTF8` are generated by
build.rs from raw resources (`utf8sjis.dat`, `sjisutf8.dat`) that are
not part of the source tree, so the development is parameterised over a
`Tables` record; properties that depend on table contents take the
table-consistency facts the spec asserts of the raw data as hypotheses,
and a small concrete table `Tdemo`, built from the byte pairs asserted
by the crate's own tests, instantiates them.
-/

set_option maxRecDepth 4000

namespace FalcomSjis

/-- Mirror of `enum EncodedChar { One([u8; 1]), Two([u8; 2]) }`. -/
inductive EncodedChar where
  | one : Nat → EncodedChar
  | two : Nat → Nat → EncodedChar
  deriving DecidableEq, Repr

/-- The byte sequence produced by `EncodedChar`'s `IntoIterator` impl:
`One([a])` yields `[a]`, `Two([a, b])` yields `[a, b]`. -/
def EncodedChar.bytes : EncodedChar → List Nat
  | .one a => [a]
  | .two a b => [a, b]

/-- `EncodedChar::REPLACEMENT`, the encoding `0x81 0x45` of `・`. -/
def EncodedChar.REPLACEMENT : EncodedChar := .two 0x81 0x45

/-- The two lookup tables. `fwd` mirrors the phf map `UTF8_SJIS`;
`rev` mirrors the 94×94 array `SJIS_UTF8` (only indices below 94 are
ever used by the codec). -/
structure Tables where
  fwd : Char → Option (Nat × Nat)
  rev : Nat → Nat → Char

/-- The sentinel marking an unmapped cell of `SJIS_UTF8`, and the
character `decode_lossy` substitutes: U+FFFD. -/
def sentinel : Char := '�'

/-- The scalar value of the half-width-kana branch: `'｡' as u32 + (b1 - 0xA1)`,
with `'｡' = U+FF61`. -/
def kanaScalar (b1 : Nat) : Nat := 0xFF61 + (b1 - 0xA1)

/-- Model of `char::from_u32`: `some` exactly on valid Unicode scalar values. -/
def charFromU32 (n : Nat) : Option Char :=
  if h : n.isValidChar then some (Char.ofNat n) else none

/-- Normalised lead-byte offset: `a - 0x81` for `0x81..=0x9F`,
`a - 0xE0 + 0x1F` for `0xE0..=0xEF`. -/
def leadOff (b1 : Nat) : Nat := if b1 ≤ 0x9F then b1 - 0x81 else b1 - 0xE0 + 0x1F

/-- Normalised trail-byte offset: `b - 0x40` for `0x40..=0x7E`,
`b - 0x80 + 0x3F` for `0x80..=0xFC`. -/
def trailOff (b2 : Nat) : Nat := if b2 ≤ 0x7E then b2 - 0x40 else b2 - 0x80 + 0x3F

/-- Row index `a * 2 + b / 94` of the `SJIS_UTF8` lookup. -/
def cellRow (b1 b2 : Nat) : Nat := leadOff b1 * 2 + trailOff b2 / 94

/-- Column index `b % 94` of the `SJIS_UTF8` lookup. -/
def cellCol (b1 b2 : Nat) : Nat := trailOff b2 % 94

/-- Lead bytes of a double-byte sequence: `0x81..=0x9F` and `0xE0..=0xEF`. -/
def isLead (b1 : Nat) : Prop := (0x81 ≤ b1 ∧ b1 ≤ 0x9F) ∨ (0xE0 ≤ b1 ∧ b1 ≤ 0xEF)

instance (b1 : Nat) : Decidable (isLead b1) := by unfold isLead; infer_instance

/-- Trail bytes of a double-byte sequence: `0x40..=0x7E` and `0x80..=0xFC`. -/
def isTrail (b2 : Nat) : Prop := (0x40 ≤ b2 ∧ b2 ≤ 0x7E) ∨ (0x80 ≤ b2 ∧ b2 ≤ 0xFC)

instance (b2 : Nat) : Decidable (isTrail b2) := by unfold isTrail; infer_instance

/-- Mirror of `encode_char`: ASCII passes through as one byte, the
half-width-kana block `'｡'..='ﾟ'` (U+FF61..=U+FF9F) maps onto
`0xA1..=0xDF`, everything else goes through the forward table. -/
def encode_char (T : Tables) (c : Char) : Option EncodedChar :=
  if c.toNat ≤ 0x7F then
    some (.one c.toNat)
  else if 0xFF61 ≤ c.toNat ∧ c.toNat ≤ 0xFF9F then
    some (.one (c.toNat - 0xFF61 + 0xA1))
  else
    match T.fwd c with
    | some (k1, k2) => some (.two k1 k2)
    | none => none

/-- Mirror of `decode_char_from`. The `b2` closure over the shared byte
iterator is modelled by threading the remaining byte list: the result
pairs the decode outcome with the bytes left unconsumed. The `.unwrap()`
on `char::from_u32` in the kana branch is modelled by `Option.getD`;
the kana scalar is always a valid scalar value (see claim C10), so the
default is unreachable. -/
def decode_char_from (T : Tables) (b1 : Nat) (rest : List Nat) :
    Except EncodedChar Char × List Nat :=
  if b1 ≤ 0x7F then
    (.ok (Char.ofNat b1), rest)
  else if 0xA1 ≤ b1 ∧ b1 ≤ 0xDF then
    (.ok ((charFromU32 (kanaScalar b1)).getD (Char.ofNat 0)), rest)
  else if isLead b1 then
    match rest with
    | [] => (.error (.one b1), [])
    | b2 :: rest2 =>
      if isTrail b2 then
        let ch := T.rev (cellRow b1 b2) (cellCol b1 b2)
        if ch = sentinel then (.error (.two b1 b2), rest2)
        else (.ok ch, rest2)
      else (.error (.two b1 b2), rest2)
  else
    (.error (.one b1), rest)

/-- Mirror of `decode_char`: `None` on empty input, otherwise
`decode_char_from` on the first byte with the rest as the source. -/
def decode_char (T : Tables) : List Nat → Option (Except EncodedChar Char × List Nat)
  | [] => none
  | b1 :: rest => some (decode_char_from T b1 rest)

/-- UTF-8 byte length of a text, the unit of `str::char_indices` offsets. -/
def utf8Len (s : List Char) : Nat := (s.map Char.utf8Size).sum

/-- Loop body of `encode`: `pos` is the UTF-8 offset of the next
character, `out` the bytes accumulated so far. -/
def encodeGo (T : Tables) : List Char → Nat → List Nat → Except Nat (List Nat)
  | [], _, out => .ok out
  | c :: cs, pos, out =>
    match encode_char T c with
    | some e => encodeGo T cs (pos + c.utf8Size) (out ++ e.bytes)
    | none => .error pos

/-- Mirror of `encode`: bytes of the text, or `Err` with the UTF-8
offset of the first unencodable character. -/
def encode (T : Tables) (s : List Char) : Except Nat (List Nat) :=
  encodeGo T s 0 []

/-- Loop body of `encode_lossy`. -/
def encodeLossyGo (T : Tables) : List Char → List Nat → List Nat
  | [], out => out
  | c :: cs, out =>
    match encode_char T c with
    | some e => encodeLossyGo T cs (out ++ e.bytes)
    | none => encodeLossyGo T cs (out ++ EncodedChar.REPLACEMENT.bytes)

/-- Mirror of `encode_lossy`: unencodable characters are replaced by
`EncodedChar::REPLACEMENT`. -/
def encode_lossy (T : Tables) (s : List Char) : List Nat :=
  encodeLossyGo T s []

/-- Loop body of `decode`: `pos` counts every byte pulled from the
iterator so far (the `inspect` counter); an error reports
`pos_after_failed_char - error_bytes_length` exactly as the source does. -/
def decodeGo (T : Tables) : List Nat → Nat → List Char →
    Except (Nat × EncodedChar) (List Char)
  | [], _, out => .ok out
  | b1 :: rest, pos, out =>
    match h : decode_char_from T b1 rest with
    | (.ok c, rest2) =>
        decodeGo T rest2 (pos + 1 + (rest.length - rest2.length)) (out ++ [c])
    | (.error e, rest2) =>
        .error (pos + 1 + (rest.length - rest2.length) - e.bytes.length, e)
  termination_by l => l.length
  decreasing_by
    have hle : (decode_char_from T b1 rest).2.length ≤ rest.length := by
      unfold decode_char_from
      split_ifs <;> (try cases rest) <;> simp_all <;> split_ifs <;> simp
    rw [h] at hle
    simp only [List.length_cons]
    simp only at hle
    omega

/-- Mirror of `decode`: the decoded text, or `Err` with the offset of
the first byte of the first invalid sequence and the offending bytes. -/
def decode (T : Tables) (input : List Nat) : Except (Nat × EncodedChar) (List Char) :=
  decodeGo T input 0 []

/-- Loop body of `decode_lossy`: per-character failures push `�`. -/
def decodeLossyGo (T : Tables) : List Nat → List Char → List Char
  | [], out => out
  | b1 :: rest, out =>
    match h : decode_char_from T b1 rest with
    | (.ok c, rest2) => decodeLossyGo T rest2 (out ++ [c])
    | (.error _, rest2) => decodeLossyGo T rest2 (out ++ [sentinel])
  termination_by l => l.length
  decreasing_by
    all_goals
      have hle : (decode_char_from T b1 rest).2.length ≤ rest.length := by
        unfold decode_char_from
        split_ifs <;> (try cases rest) <;> simp_all <;> split_ifs <;> simp
      rw [h] at hle
      simp only [List.length_cons]
      simp only at hle
      omega

/-- Mirror of `decode_lossy`. -/
def decode_lossy (T : Tables) (input : List Nat) : List Char :=
  decodeLossyGo T input []

/-- Modelled from the spec: the raw mapping resources `utf8sjis.dat` and
`sjisutf8.dat` behind the two tables are not part of the source tree;
the spec asserts (§3, §8 round trip) that every Forward Table entry is a
valid lead/trail pair whose Reverse Table cell holds the original
character again (never the sentinel). -/
def FwdOk (T : Tables) : Prop :=
  ∀ c k1 k2, T.fwd c = some (k1, k2) →
    isLead k1 ∧ isTrail k2 ∧ T.rev (cellRow k1 k2) (cellCol k1 k2) = c ∧ c ≠ sentinel

/-- The ten duplicate byte pairs listed in the `decode_then_encode` test. -/
def dupPairs : List (Nat × Nat) :=
  [(0x87, 0x90), (0x87, 0x91), (0x87, 0x92), (0x87, 0x95), (0x87, 0x96),
   (0x87, 0x97), (0x87, 0x9A), (0x87, 0x9B), (0x87, 0x9C), (0xEE, 0xF9)]

/-- Modelled from the spec: reverse-table consistency at one cell.
A mapped cell holds a character outside the ASCII and half-width-kana
ranges whose Forward Table entry is either the cell's own byte pair, or
differs only at one of the ten duplicate pairs or at the fallback `・`
(spec §8, inverse round trip; `sjisutf8.dat` is not in the source tree). -/
def RevConsistentAt (T : Tables) (b1 b2 : Nat) : Prop :=
  T.rev (cellRow b1 b2) (cellCol b1 b2) ≠ sentinel →
    let ch := T.rev (cellRow b1 b2) (cellCol b1 b2)
    0x7F < ch.toNat ∧ ¬(0xFF61 ≤ ch.toNat ∧ ch.toNat ≤ 0xFF9F) ∧
    (T.fwd ch = some (b1, b2) ∨
      ((T.fwd ch).isSome ∧ ((b1, b2) ∈ dupPairs ∨ ch = '・')))

/-- Forward table of the demonstration instance, holding exactly the
associations asserted by the crate's tests (`test_encode`,
`test_decode`, `encode_replacement`). -/
def demoFwd (c : Char) : Option (Nat × Nat) :=
  if c = '日' then some (0x93, 0xFA)
  else if c = '本' then some (0x96, 0x7B)
  else if c = 'フ' then some (0x83, 0x74)
  else if c = 'ァ' then some (0x83, 0x40)
  else if c = 'ル' then some (0x83, 0x8B)
  else if c = 'コ' then some (0x83, 0x52)
  else if c = 'ム' then some (0x83, 0x80)
  else if c = 'メ' then some (0x83, 0x81)
  else if c = '・' then some (0x81, 0x45)
  else none

/-- Reverse table of the demonstration instance: the cells reached by
the `demoFwd` byte pairs, every other cell unmapped. -/
def demoRev (i j : Nat) : Char :=
  if i = 37 ∧ j = 91 then '日'
  else if i = 42 ∧ j = 59 then '本'
  else if i = 4 ∧ j = 52 then 'フ'
  else if i = 4 ∧ j = 0 then 'ァ'
  else if i = 4 ∧ j = 74 then 'ル'
  else if i = 4 ∧ j = 18 then 'コ'
  else if i = 4 ∧ j = 63 then 'ム'
  else if i = 4 ∧ j = 64 then 'メ'
  else if i = 0 ∧ j = 5 then '・'
  else sentinel

/-- The demonstration table instance. -/
def Tdemo : Tables := ⟨demoFwd, demoRev⟩

/-- Per-character byte output of `encode_lossy`: the character's own
encoding, or the fixed replacement bytes. -/
def lossyBytes (T : Tables) (c : Char) : List Nat :=
  match encode_char T c with
  | some e => e.bytes
  | none => EncodedChar.REPLACEMENT.bytes

/-- The character a lossy encode/decode round trip leaves in place of
`c`: `c` itself when encodable, otherwise the fallback `・`. -/
def lossyFix (T : Tables) (c : Char) : Char :=
  match encode_char T c with
  | some _ => c
  | none => '・'

/-- `decode_char_from` never hands back more bytes than it was given. -/
theorem decode_char_from_rest_le (T : Tables) (b1 : Nat) (rest : List Nat) :
    (decode_char_from T b1 rest).2.length ≤ rest.length := by
  unfold decode_char_from
  split_ifs <;> (try cases rest) <;> simp_all <;> split_ifs <;> simp

/-- `Tdemo` satisfies the forward-table consistency the spec asserts of
the real tables. -/
theorem fwdOk_demo : FwdOk Tdemo := by
  intro c k1 k2 h
  have h2 : demoFwd c = some (k1, k2) := h
  unfold demoFwd at h2
  split_ifs at h2 <;>
    first
      | (simp only [Option.some.injEq, Prod.mk.injEq] at h2
         obtain ⟨rfl, rfl⟩ := h2
         subst_vars
         decide)
      | exact absurd h2 (by simp)


/-- The half-width-kana scalar is a valid Unicode scalar value. -/
theorem kanaScalar_valid (b1 : Nat) (h1 : 0xA1 ≤ b1) (h2 : b1 ≤ 0xDF) :
    (kanaScalar b1).isValidChar := by
  unfold kanaScalar Nat.isValidChar
  right
  omega

/-- `char::from_u32` succeeds on every half-width-kana scalar. -/
theorem charFromU32_kana (b1 : Nat) (h1 : 0xA1 ≤ b1) (h2 : b1 ≤ 0xDF) :
    charFromU32 (kanaScalar b1) = some (Char.ofNat (kanaScalar b1)) := by
  unfold charFromU32
  rw [dif_pos (kanaScalar_valid b1 h1 h2)]

theorem dcf_ascii (T : Tables) (b1 : Nat) (rest : List Nat) (h : b1 ≤ 0x7F) :
    decode_char_from T b1 rest = (.ok (Char.ofNat b1), rest) := by
  unfold decode_char_from
  rw [if_pos h]

theorem dcf_kana (T : Tables) (b1 : Nat) (rest : List Nat)
    (h1 : 0xA1 ≤ b1) (h2 : b1 ≤ 0xDF) :
    decode_char_from T b1 rest = (.ok (Char.ofNat (kanaScalar b1)), rest) := by
  unfold decode_char_from
  rw [if_neg (by omega), if_pos ⟨h1, h2⟩, charFromU32_kana b1 h1 h2]
  simp

theorem dcf_badlead (T : Tables) (b1 : Nat) (rest : List Nat)
    (h : b1 = 0x80 ∨ b1 = 0xA0 ∨ 0xF0 ≤ b1) :
    decode_char_from T b1 rest = (.error (.one b1), rest) := by
  unfold decode_char_from
  rw [if_neg (by omega), if_neg (by omega), if_neg (by unfold isLead; omega)]

theorem isLead_bounds (b1 : Nat) (h : isLead b1) :
    ¬b1 ≤ 0x7F ∧ ¬(0xA1 ≤ b1 ∧ b1 ≤ 0xDF) := by
  unfold isLead at h
  omega

theorem dcf_lead_nil (T : Tables) (b1 : Nat) (hl : isLead b1) :
    decode_char_from T b1 [] = (.error (.one b1), []) := by
  obtain ⟨hn1, hn2⟩ := isLead_bounds b1 hl
  unfold decode_char_from
  rw [if_neg hn1, if_neg hn2, if_pos hl]

theorem dcf_badtrail (T : Tables) (b1 b2 : Nat) (r : List Nat)
    (hl : isLead b1) (ht : ¬isTrail b2) :
    decode_char_from T b1 (b2 :: r) = (.error (.two b1 b2), r) := by
  obtain ⟨hn1, hn2⟩ := isLead_bounds b1 hl
  unfold decode_char_from
  rw [if_neg hn1, if_neg hn2, if_pos hl]
  simp only [if_neg ht]

theorem dcf_cell (T : Tables) (b1 b2 : Nat) (r : List Nat)
    (hl : isLead b1) (ht : isTrail b2) :
    decode_char_from T b1 (b2 :: r) =
      (if T.rev (cellRow b1 b2) (cellCol b1 b2) = sentinel then
        (.error (.two b1 b2), r)
      else (.ok (T.rev (cellRow b1 b2) (cellCol b1 b2)), r)) := by
  obtain ⟨hn1, hn2⟩ := isLead_bounds b1 hl
  unfold decode_char_from
  rw [if_neg hn1, if_neg hn2, if_pos hl]
  simp only [if_pos ht]

theorem decodeGo_nil (T : Tables) (pos : Nat) (out : List Char) :
    decodeGo T [] pos out = .ok out := by
  rw [decodeGo]

theorem decodeGo_cons (T : Tables) (b1 : Nat) (rest : List Nat) (pos : Nat)
    (out : List Char) :
    decodeGo T (b1 :: rest) pos out =
      match decode_char_from T b1 rest with
      | (.ok c, rest2) =>
          decodeGo T rest2 (pos + 1 + (rest.length - rest2.length)) (out ++ [c])
      | (.error e, rest2) =>
          .error (pos + 1 + (rest.length - rest2.length) - e.bytes.length, e) := by
  rw [decodeGo]
  split <;> (rename_i h; rw [h])

theorem decodeLossyGo_nil (T : Tables) (out : List Char) :
    decodeLossyGo T [] out = out := by
  rw [decodeLossyGo]

theorem decodeLossyGo_cons (T : Tables) (b1 : Nat) (rest : List Nat)
    (out : List Char) :
    decodeLossyGo T (b1 :: rest) out =
      match decode_char_from T b1 rest with
      | (.ok c, rest2) => decodeLossyGo T rest2 (out ++ [c])
      | (.error _, rest2) => decodeLossyGo T rest2 (out ++ [sentinel]) := by
  rw [decodeLossyGo]
  split <;> (rename_i h; rw [h])

theorem encodeLossyGo_acc (T : Tables) (s : List Char) (out : List Nat) :
    encodeLossyGo T s out = out ++ s.flatMap (lossyBytes T) := by
  induction s generalizing out with
  | nil => simp [encodeLossyGo]
  | cons c cs ih =>
    simp only [encodeLossyGo]
    cases hc : encode_char T c <;> simp [hc, ih, lossyBytes]

/-- C1 fails on the code: on the invalid two-byte sequence `0x81 0x3F`
the per-character decode consumes both bytes (the trail byte was pulled
from the shared iterator before the failure), so `decode_lossy` emits a
single replacement character and does not resume at the byte after
0x81; resuming there would re-decode 0x3F as `?` and yield two
characters. -/
theorem decode_lossy_skips_consumed_pair (T : Tables) :
    decode_char_from T 0x81 [0x3F] = (.error (.two 0x81 0x3F), []) ∧
    decode_lossy T [0x81, 0x3F] = [sentinel] := by
  have h1 : decode_char_from T 0x81 [0x3F] = (.error (.two 0x81 0x3F), []) :=
    dcf_badtrail T 0x81 0x3F [] (by unfold isLead; omega) (by unfold isTrail; omega)
  refine ⟨h1, ?_⟩
  unfold decode_lossy
  rw [decodeLossyGo_cons, h1]
  simp [decodeLossyGo_nil]

/-- C6: `encode_lossy` always succeeds, emitting for each character in
order its own encoding when `encode_char` succeeds and otherwise the
fixed replacement bytes `0x81 0x45`; and, given the forward-table entry
the crate's `encode_replacement` test asserts, `encode_char '・'` is
exactly `EncodedChar::REPLACEMENT`. -/
theorem encode_lossy_per_char (T : Tables) (s : List Char)
    (hrep : T.fwd '・' = some (0x81, 0x45)) :
    encode_lossy T s = s.flatMap (lossyBytes T) ∧
    encode_char T '・' = some EncodedChar.REPLACEMENT := by
  constructor
  · simpa using encodeLossyGo_acc T s []
  · unfold encode_char
    rw [if_neg (by decide), if_neg (by decide), hrep]
    rfl

theorem encode_lossy_per_char_witness :
    encode_lossy Tdemo ['日', '₂'] = (['日', '₂'].flatMap (lossyBytes Tdemo)) ∧
    encode_char Tdemo '・' = some EncodedChar.REPLACEMENT :=
  encode_lossy_per_char Tdemo ['日', '₂'] (by decide)

/-- C7: classification of `decode_char_from` by first byte: ASCII bytes,
half-width-kana bytes and the invalid-lead set {0x80, 0xA0, 0xF0..}
consume exactly the one byte `b1` (returning the ASCII scalar, the kana
scalar, and an invalid-sequence error carrying only `b1` respectively);
every other byte is a lead byte that requests exactly one further byte,
and every error carries exactly the consumed bytes. -/
theorem decode_char_from_classify (T : Tables) (b1 : Nat) (rest : List Nat)
    (hb : b1 < 256) :
    (b1 ≤ 0x7F → decode_char_from T b1 rest = (.ok (Char.ofNat b1), rest)) ∧
    (0xA1 ≤ b1 ∧ b1 ≤ 0xDF →
      decode_char_from T b1 rest = (.ok (Char.ofNat (kanaScalar b1)), rest)) ∧
    ((b1 = 0x80 ∨ b1 = 0xA0 ∨ 0xF0 ≤ b1) →
      decode_char_from T b1 rest = (.error (.one b1), rest)) ∧
    (isLead b1 →
      (rest = [] → decode_char_from T b1 [] = (.error (.one b1), [])) ∧
      (∀ b2 r, rest = b2 :: r →
        (decode_char_from T b1 rest).2 = r ∧
        ∀ e, (decode_char_from T b1 rest).1 = .error e → e = .two b1 b2)) := by
  refine ⟨fun h => dcf_ascii T b1 rest h,
          fun h => dcf_kana T b1 rest h.1 h.2,
          fun h => dcf_badlead T b1 rest h,
          fun hl => ⟨fun _ => dcf_lead_nil T b1 hl, ?_⟩⟩
  rintro b2 r rfl
  by_cases ht : isTrail b2
  · rw [dcf_cell T b1 b2 r hl ht]
    split_ifs with hs
    · exact ⟨rfl, fun e he => by injection he with h2; exact h2.symm⟩
    · exact ⟨rfl, fun e he => by simp at he⟩
  · rw [dcf_badtrail T b1 b2 r hl ht]
    exact ⟨rfl, fun e he => by injection he with h2; exact h2.symm⟩

theorem decode_char_from_classify_witness :
    decode_char_from Tdemo 0x80 [] = (.error (.one 0x80), []) ∧
    decode_char_from Tdemo 0x41 [] = (.ok (Char.ofNat 0x41), []) :=
  ⟨(decode_char_from_classify Tdemo 0x80 [] (by decide)).2.2.1 (by decide),
   (decode_char_from_classify Tdemo 0x41 [] (by decide)).1 (by decide)⟩

/-- C10: for every first byte in 0xA1–0xDF the half-width-kana scalar
U+FF61 + (b1 − 0xA1) is a valid Unicode scalar value, the modelled
`char::from_u32` returns `some` on it, and the kana branch of
`decode_char_from` succeeds without ever reaching the unwrap default. -/
theorem kana_unwrap_safe (T : Tables) (b1 : Nat) (rest : List Nat)
    (h1 : 0xA1 ≤ b1) (h2 : b1 ≤ 0xDF) :
    (kanaScalar b1).isValidChar ∧
    charFromU32 (kanaScalar b1) = some (Char.ofNat (kanaScalar b1)) ∧
    decode_char_from T b1 rest = (.ok (Char.ofNat (kanaScalar b1)), rest) :=
  ⟨kanaScalar_valid b1 h1 h2, charFromU32_kana b1 h1 h2, dcf_kana T b1 rest h1 h2⟩

theorem kana_unwrap_safe_witness :
    (kanaScalar 0xA1).isValidChar ∧
    charFromU32 (kanaScalar 0xA1) = some (Char.ofNat (kanaScalar 0xA1)) ∧
    decode_char_from Tdemo 0xA1 [] = (.ok (Char.ofNat (kanaScalar 0xA1)), []) :=
  kana_unwrap_safe Tdemo 0xA1 [] (by decide) (by decide)

theorem toNat_ofNat_valid (n : Nat) (h : n.isValidChar) : (Char.ofNat n).toNat = n := by
  unfold Char.ofNat
  rw [dif_pos h]
  unfold Char.ofNatAux Char.toNat
  simp [UInt32.toNat, BitVec.toNat_ofNatLt]

/-- C2: wherever `encode_char` succeeds, feeding the produced bytes to
`decode_char` returns exactly the original scalar value. The ASCII and
kana branches hold by arithmetic alone; the forward-table branch holds
under the consistency of the external table data at the produced pair
(spec §3 invariant), which covers the ten duplicate-mapping symbols as
well: their canonical encoding also decodes back to the same value. -/
theorem encode_then_decode_char (T : Tables) (c : Char) (e : EncodedChar)
    (henc : encode_char T c = some e)
    (hcons : ∀ k1 k2, e = .two k1 k2 → isLead k1 ∧ isTrail k2 ∧
      T.rev (cellRow k1 k2) (cellCol k1 k2) = c ∧ c ≠ sentinel) :
    decode_char T e.bytes = some (.ok c, []) := by
  unfold encode_char at henc
  split_ifs at henc with h1 h2
  · injection henc with he
    subst he
    simp only [decode_char, EncodedChar.bytes]
    rw [dcf_ascii T c.toNat [] h1, Char.ofNat_toNat]
  · injection henc with he
    subst he
    simp only [decode_char, EncodedChar.bytes]
    rw [dcf_kana T _ [] (by omega) (by omega)]
    have hk : kanaScalar (c.toNat - 0xFF61 + 0xA1) = c.toNat := by
      unfold kanaScalar
      omega
    rw [hk, Char.ofNat_toNat]
  · cases hf : T.fwd c with
    | none => rw [hf] at henc; cases henc
    | some p =>
      obtain ⟨k1, k2⟩ := p
      rw [hf] at henc
      injection henc with he
      subst he
      obtain ⟨hl, ht, hcell, hns⟩ := hcons k1 k2 rfl
      simp only [decode_char, EncodedChar.bytes]
      rw [dcf_cell T k1 k2 [] hl ht, hcell, if_neg hns]

theorem encode_then_decode_char_witness :
    decode_char Tdemo (EncodedChar.two 0x93 0xFA).bytes = some (.ok '日', []) :=
  encode_then_decode_char Tdemo '日' (.two 0x93 0xFA) (by decide)
    (fun k1 k2 h => by
      injection h with ha hb
      subst ha
      subst hb
      exact ⟨by decide, by decide, by decide, by decide⟩)

theorem encodeGo_all_encodable (T : Tables) (s : List Char) (pos : Nat)
    (out : List Nat) (hall : ∀ c ∈ s, (encode_char T c).isSome) :
    encodeGo T s pos out = .ok (out ++ s.flatMap (lossyBytes T)) := by
  induction s generalizing pos out with
  | nil => simp [encodeGo]
  | cons c cs ih =>
    obtain ⟨e, he⟩ := Option.isSome_iff_exists.mp (hall c (by simp))
    simp only [encodeGo, he]
    rw [ih _ _ (fun x hx => hall x (by simp [hx]))]
    simp [lossyBytes, he]

theorem encodeGo_first_fail (T : Tables) (pre : List Char) (c : Char)
    (post : List Char) (pos : Nat) (out : List Nat)
    (hpre : ∀ x ∈ pre, (encode_char T x).isSome)
    (hc : encode_char T c = none) :
    encodeGo T (pre ++ c :: post) pos out = .error (pos + utf8Len pre) := by
  induction pre generalizing pos out with
  | nil => simp [encodeGo, hc, utf8Len]
  | cons a pre2 ih =>
    obtain ⟨e, he⟩ := Option.isSome_iff_exists.mp (hpre a (by simp))
    simp only [List.cons_append, encodeGo, he]
    have hrec := ih (pos + a.utf8Size) (out ++ e.bytes)
      (fun x hx => hpre x (by simp [hx]))
    rw [show utf8Len (a :: pre2) = a.utf8Size + utf8Len pre2 from by
          simp [utf8Len],
        show pos + (a.utf8Size + utf8Len pre2) = pos + a.utf8Size + utf8Len pre2
          from by omega]
    exact hrec

/-- C4: `encode` returns the in-order concatenation of the per-character
encodings when every character is encodable (`lossyBytes` coincides with
the character's own encoding there), aborts at the first unencodable
character reporting its UTF-8 byte offset in the input, and — on the
forward-table entries asserted by the crate's tests — encoding `日本2=₂`
fails at offset 8, the UTF-8 length of `日本2=`. -/
theorem encode_first_fail_offset (T : Tables) (s : List Char) :
    ((∀ c ∈ s, (encode_char T c).isSome) →
      encode T s = .ok (s.flatMap (lossyBytes T))) ∧
    (∀ pre c post, s = pre ++ c :: post →
      (∀ x ∈ pre, (encode_char T x).isSome) →
      encode_char T c = none →
      encode T s = .error (utf8Len pre)) ∧
    (T.fwd '日' = some (0x93, 0xFA) → T.fwd '本' = some (0x96, 0x7B) →
      T.fwd '₂' = none →
      encode T ['日', '本', '2', '=', '₂'] = .error 8) := by
  refine ⟨fun hall => ?_, fun pre c post hs hpre hc => ?_, fun hA hB hC => ?_⟩
  · unfold encode
    rw [encodeGo_all_encodable T s 0 [] hall]
    simp
  · unfold encode
    rw [hs, encodeGo_first_fail T pre c post 0 [] hpre hc]
    simp
  · have hd : encode_char T '日' = some (.two 0x93 0xFA) := by
      unfold encode_char
      rw [if_neg (by decide), if_neg (by decide), hA]
    have hh : encode_char T '本' = some (.two 0x96 0x7B) := by
      unfold encode_char
      rw [if_neg (by decide), if_neg (by decide), hB]
    have hs : encode_char T '₂' = none := by
      unfold encode_char
      rw [if_neg (by decide), if_neg (by decide), hC]
    have hpre : ∀ x ∈ ['日', '本', '2', '='], (encode_char T x).isSome := by
      intro x hx
      simp only [List.mem_cons, List.not_mem_nil, or_false] at hx
      rcases hx with rfl | rfl | rfl | rfl
      · rw [hd]; rfl
      · rw [hh]; rfl
      · unfold encode_char; rw [if_pos (by decide)]; rfl
      · unfold encode_char; rw [if_pos (by decide)]; rfl
    have h8 : utf8Len ['日', '本', '2', '='] = 8 := by decide
    have := encodeGo_first_fail T ['日', '本', '2', '='] '₂' [] 0 [] hpre hs
    unfold encode
    rw [show (['日', '本', '2', '=', '₂'] : List Char)
          = ['日', '本', '2', '='] ++ '₂' :: [] from rfl, this, h8]

theorem encode_first_fail_offset_witness :
    encode Tdemo ['日', '本', '2', '=', '₂'] = .error 8 :=
  (encode_first_fail_offset Tdemo ['日', '本', '2', '=', '₂']).2.2
    (by decide) (by decide) (by decide)

theorem encodeGo_lossy_agree (T : Tables) (s : List Char) (pos : Nat)
    (out v : List Nat) (h : encodeGo T s pos out = .ok v) :
    encodeLossyGo T s out = v := by
  induction s generalizing pos out with
  | nil =>
    simp only [encodeGo, Except.ok.injEq] at h
    simpa [encodeLossyGo] using h
  | cons c cs ih =>
    simp only [encodeGo] at h
    simp only [encodeLossyGo]
    cases hc : encode_char T c with
    | some e =>
      rw [hc] at h
      exact ih _ _ h
    | none =>
      rw [hc] at h
      cases h

theorem decodeGo_lossy_agree (T : Tables) (input : List Nat) (pos : Nat)
    (out t : List Char) (h : decodeGo T input pos out = .ok t) :
    decodeLossyGo T input out = t := by
  match input with
  | [] =>
    rw [decodeGo_nil] at h
    rw [decodeLossyGo_nil]
    injection h
  | b1 :: rest =>
    rw [decodeGo_cons] at h
    rw [decodeLossyGo_cons]
    rcases hdc : decode_char_from T b1 rest with ⟨r, rest2⟩
    rw [hdc] at h
    cases r with
    | ok c =>
      simp only at h ⊢
      exact decodeGo_lossy_agree T rest2 _ _ t h
    | error e => simp at h
  termination_by input.length
  decreasing_by
    have hle := decode_char_from_rest_le T b1 rest
    rw [hdc] at hle
    simp only at hle
    simp only [List.length_cons]
    omega

/-- C9: the strict and lossy string codecs agree wherever the strict
ones succeed: `encode s = Ok v` forces `encode_lossy s = v`, and
`decode b = Ok t` forces `decode_lossy b = t`, for any tables. -/
theorem strict_lossy_agree (T : Tables) (s : List Char) (input v : List Nat)
    (t : List Char) :
    (encode T s = .ok v → encode_lossy T s = v) ∧
    (decode T input = .ok t → decode_lossy T input = t) :=
  ⟨fun h => encodeGo_lossy_agree T s 0 [] v h,
   fun h => decodeGo_lossy_agree T input 0 [] t h⟩

theorem strict_lossy_agree_witness :
    encode_lossy Tdemo ['A'] = [0x41] ∧ decode_lossy Tdemo [0x41] = ['A'] :=
  ⟨(strict_lossy_agree Tdemo ['A'] [0x41] [0x41] ['A']).1 (by rfl),
   (strict_lossy_agree Tdemo ['A'] [0x41] [0x41] ['A']).2 (by
      rw [decode, decodeGo_cons, dcf_ascii Tdemo 0x41 [] (by decide)]
      simp only
      rw [decodeGo_nil]
      rfl)⟩

theorem dcf_invalid (T : Tables) (b1 : Nat) (rest : List Nat)
    (h1 : ¬b1 ≤ 0x7F) (h2 : ¬(0xA1 ≤ b1 ∧ b1 ≤ 0xDF)) (h3 : ¬isLead b1) :
    decode_char_from T b1 rest = (.error (.one b1), rest) := by
  unfold decode_char_from
  rw [if_neg h1, if_neg h2, if_neg h3]

theorem encode_char_ascii (T : Tables) (c : Char) (h : c.toNat ≤ 0x7F) :
    encode_char T c = some (.one c.toNat) := by
  unfold encode_char
  rw [if_pos h]

theorem encode_char_kana (T : Tables) (c : Char)
    (h1 : 0xFF61 ≤ c.toNat) (h2 : c.toNat ≤ 0xFF9F) :
    encode_char T c = some (.one (c.toNat - 0xFF61 + 0xA1)) := by
  unfold encode_char
  rw [if_neg (by omega), if_pos ⟨h1, h2⟩]

theorem encode_char_tbl (T : Tables) (c : Char) (k1 k2 : Nat)
    (h1 : ¬c.toNat ≤ 0x7F) (h2 : ¬(0xFF61 ≤ c.toNat ∧ c.toNat ≤ 0xFF9F))
    (hf : T.fwd c = some (k1, k2)) :
    encode_char T c = some (.two k1 k2) := by
  unfold encode_char
  rw [if_neg h1, if_neg h2, hf]

/-- C3: whenever `decode_char_from` accepts a sequence, the decoded
character re-encodes; the re-encoded bytes equal the consumed bytes
(`[b1]` when one byte was consumed, `[b1, b2]` when two), except at the
ten duplicate pairs and at sequences decoding to the fallback `・`.
The consistency of the external reverse-table data at the consumed cell
(`RevConsistentAt`, spec §8 inverse round trip) is assumed. -/
theorem decode_then_encode_char (T : Tables) (b1 : Nat) (rest : List Nat)
    (c : Char) (rest2 : List Nat)
    (hdec : decode_char_from T b1 rest = (.ok c, rest2))
    (hcons : ∀ b2 r, rest = b2 :: r → rest2 = r → RevConsistentAt T b1 b2) :
    ∃ e, encode_char T c = some e ∧
      (rest2 = rest → e.bytes = [b1]) ∧
      (∀ b2 r, rest = b2 :: r → rest2 = r →
        (b1, b2) ∉ dupPairs → c ≠ '・' → e.bytes = [b1, b2]) := by
  by_cases h1 : b1 ≤ 0x7F
  · rw [dcf_ascii T b1 rest h1] at hdec
    injection hdec with hc hr
    injection hc with hc
    subst hc
    have hb : (Char.ofNat b1).toNat = b1 := toNat_ofNat_valid b1 (Or.inl (by omega))
    refine ⟨.one b1, ?_, fun _ => rfl, fun b2 r hcons2 hr2 _ _ => ?_⟩
    · rw [encode_char_ascii T _ (by rw [hb]; omega), hb]
    · exact absurd (by rw [← hcons2, hr, hr2] : b2 :: r = r) (List.cons_ne_self b2 r)
  · by_cases h2 : 0xA1 ≤ b1 ∧ b1 ≤ 0xDF
    · rw [dcf_kana T b1 rest h2.1 h2.2] at hdec
      injection hdec with hc hr
      injection hc with hc
      subst hc
      have hval : (kanaScalar b1).isValidChar := kanaScalar_valid b1 h2.1 h2.2
      have htn : (Char.ofNat (kanaScalar b1)).toNat = kanaScalar b1 :=
        toNat_ofNat_valid _ hval
      have hksp : 0xFF61 ≤ kanaScalar b1 ∧ kanaScalar b1 ≤ 0xFF9F := by
        unfold kanaScalar
        omega
      refine ⟨.one b1, ?_, fun _ => rfl, fun b2 r hcons2 hr2 _ _ => ?_⟩
      · have henc := encode_char_kana T (Char.ofNat (kanaScalar b1))
          (by rw [htn]; exact hksp.1) (by rw [htn]; exact hksp.2)
        rw [htn] at henc
        rw [henc]
        congr 2
        unfold kanaScalar
        omega
      · exact absurd (by rw [← hcons2, hr, hr2] : b2 :: r = r)
          (List.cons_ne_self b2 r)
    · by_cases h3 : isLead b1
      · cases rest with
        | nil =>
          rw [dcf_lead_nil T b1 h3] at hdec
          simp at hdec
        | cons b2 r =>
          by_cases ht : isTrail b2
          · rw [dcf_cell T b1 b2 r h3 ht] at hdec
            split_ifs at hdec with hs
            · simp at hdec
            · injection hdec with hc hr
              injection hc with hc
              subst hc
              subst hr
              obtain ⟨hna, hnk, hfwd⟩ := hcons b2 r rfl rfl hs
              rcases hfwd with heq | ⟨hsome, hexc⟩
              · refine ⟨.two b1 b2,
                  encode_char_tbl T _ b1 b2 (by omega) hnk heq,
                  fun habs => absurd habs.symm (List.cons_ne_self b2 r),
                  fun b2x rx hx hrx _ _ => ?_⟩
                injection hx with hb2 hrr
                subst hb2
                rfl
              · obtain ⟨⟨k1, k2⟩, hp⟩ := Option.isSome_iff_exists.mp hsome
                refine ⟨.two k1 k2,
                  encode_char_tbl T _ k1 k2 (by omega) hnk hp,
                  fun habs => absurd habs.symm (List.cons_ne_self b2 r),
                  fun b2x rx hx hrx hndup hnfix => ?_⟩
                injection hx with hb2 hrr
                subst hb2
                exfalso
                rcases hexc with hdup | hfix
                · exact hndup hdup
                · exact hnfix hfix
          · rw [dcf_badtrail T b1 b2 r h3 ht] at hdec
            simp at hdec
      · rw [dcf_invalid T b1 rest h1 h2 h3] at hdec
        simp at hdec

theorem decode_then_encode_char_witness :
    ∃ e, encode_char Tdemo 'フ' = some e ∧
      (([] : List Nat) = [0x74] → e.bytes = [0x83]) ∧
      (∀ b2 r, [0x74] = b2 :: r → ([] : List Nat) = r →
        (0x83, b2) ∉ dupPairs → 'フ' ≠ '・' → e.bytes = [0x83, b2]) :=
  decode_then_encode_char Tdemo 0x83 [0x74] 'フ' [] (by rfl)
    (fun b2 r hx hr => by
      injection hx with hb2 hrr
      subst hb2
      unfold RevConsistentAt
      decide)

/-- An error of `decode_char_from` carries exactly the consumed bytes:
they are the input prefix of the error's length, and consumption equals
that length. -/
theorem dcf_error_shape (T : Tables) (b1 : Nat) (rest : List Nat)
    (e : EncodedChar) (rest2 : List Nat)
    (h : decode_char_from T b1 rest = (.error e, rest2)) :
    e.bytes = b1 :: rest.take (e.bytes.length - 1) ∧
    rest2 = rest.drop (e.bytes.length - 1) ∧
    1 + (rest.length - rest2.length) = e.bytes.length := by
  by_cases h1 : b1 ≤ 0x7F
  · rw [dcf_ascii T b1 rest h1] at h
    simp at h
  · by_cases h2 : 0xA1 ≤ b1 ∧ b1 ≤ 0xDF
    · rw [dcf_kana T b1 rest h2.1 h2.2] at h
      simp at h
    · by_cases h3 : isLead b1
      · cases rest with
        | nil =>
          rw [dcf_lead_nil T b1 h3] at h
          injection h with he hr
          injection he with he
          subst he
          subst hr
          simp [EncodedChar.bytes]
        | cons b2 r =>
          by_cases ht : isTrail b2
          · rw [dcf_cell T b1 b2 r h3 ht] at h
            split_ifs at h with hs
            · injection h with he hr
              injection he with he
              subst he
              subst hr
              simp [EncodedChar.bytes]
            · simp at h
          · rw [dcf_badtrail T b1 b2 r h3 ht] at h
            injection h with he hr
            injection he with he
            subst he
            subst hr
            simp [EncodedChar.bytes]
      · rw [dcf_invalid T b1 rest h1 h2 h3] at h
        injection h with he hr
        injection he with he
        subst he
        subst hr
        simp [EncodedChar.bytes]

/-- A success of `decode_char_from` leaves a suffix of the input,
consumes at most one byte of it, and only looks at the consumed part:
appending anything after the consumed bytes gives the same character
with the appended part left over. -/
theorem dcf_ok_drop (T : Tables) (b1 : Nat) (rest : List Nat) (c : Char)
    (rest2 : List Nat) (h : decode_char_from T b1 rest = (.ok c, rest2)) :
    rest2 = rest.drop (rest.length - rest2.length) ∧
    rest.length - rest2.length ≤ 1 ∧
    ∀ s, decode_char_from T b1
      (rest.take (rest.length - rest2.length) ++ s) = (.ok c, s) := by
  by_cases h1 : b1 ≤ 0x7F
  · rw [dcf_ascii T b1 rest h1] at h
    injection h with he hr
    injection he with he
    subst he
    subst hr
    refine ⟨by simp, by simp, fun s => ?_⟩
    rw [Nat.sub_self]
    simpa using dcf_ascii T b1 s h1
  · by_cases h2 : 0xA1 ≤ b1 ∧ b1 ≤ 0xDF
    · rw [dcf_kana T b1 rest h2.1 h2.2] at h
      injection h with he hr
      injection he with he
      subst he
      subst hr
      refine ⟨by simp, by simp, fun s => ?_⟩
      rw [Nat.sub_self]
      simpa using dcf_kana T b1 s h2.1 h2.2
    · by_cases h3 : isLead b1
      · cases rest with
        | nil =>
          rw [dcf_lead_nil T b1 h3] at h
          simp at h
        | cons b2 r =>
          by_cases ht : isTrail b2
          · rw [dcf_cell T b1 b2 r h3 ht] at h
            split_ifs at h with hs
            · simp at h
            · injection h with he hr
              injection he with he
              subst he
              subst hr
              have hd : (b2 :: r).length - r.length = 1 := by simp
              rw [hd]
              refine ⟨by simp, by simp, fun s => ?_⟩
              rw [show (b2 :: r).take 1 ++ s = b2 :: s from by simp,
                  dcf_cell T b1 b2 s h3 ht, if_neg hs]
          · rw [dcf_badtrail T b1 b2 r h3 ht] at h
            simp at h
      · rw [dcf_invalid T b1 rest h1 h2 h3] at h
        simp at h

/-- A `decode` error at offset `n` (with `pos` already consumed) means:
the prefix up to `n` decodes cleanly, the error bytes sit literally at
offset `n` of the input, and the per-character decode fails there. -/
theorem decodeGo_error_split (T : Tables) (input : List Nat) (pos : Nat)
    (out : List Char) (n : Nat) (e : EncodedChar)
    (h : decodeGo T input pos out = .error (n, e)) :
    pos ≤ n ∧
    (∃ t, decodeGo T (input.take (n - pos)) pos out = .ok t) ∧
    (∃ tail2, input.drop (n - pos) = e.bytes ++ tail2) ∧
    (decode_char T (input.drop (n - pos))).map Prod.fst = some (.error e) := by
  match input with
  | [] =>
    rw [decodeGo_nil] at h
    simp at h
  | b1 :: rest =>
    rw [decodeGo_cons] at h
    rcases hdc : decode_char_from T b1 rest with ⟨res, rest2⟩
    rw [hdc] at h
    cases res with
    | error e2 =>
      simp only at h
      injection h with hpair
      injection hpair with hn he
      subst he
      obtain ⟨hbytes, hrest2, hlen⟩ := dcf_error_shape T b1 rest e2 rest2 hdc
      have hn0 : n = pos := by omega
      subst hn0
      rw [Nat.sub_self]
      refine ⟨Nat.le_refl n, ⟨out, by rw [List.take_zero, decodeGo_nil]⟩,
        ⟨rest2, ?_⟩, ?_⟩
      · rw [List.drop_zero, hbytes, hrest2, List.cons_append,
            List.take_append_drop]
      · rw [List.drop_zero]
        simp [decode_char, hdc]
    | ok c =>
      simp only at h
      obtain ⟨hler, hd1, hloc⟩ := dcf_ok_drop T b1 rest c rest2 hdc
      obtain ⟨hle, ⟨t, ht⟩, ⟨tail2, htail⟩, hdecc⟩ :=
        decodeGo_error_split T rest2 (pos + 1 + (rest.length - rest2.length))
          (out ++ [c]) n e h
      set d := rest.length - rest2.length with hd
      set m := n - (pos + 1 + d) with hm
      have hfull : n - pos = (d + m) + 1 := by omega
      have hdrop : rest.drop (d + m) = rest2.drop m := by
        rw [← List.drop_drop, ← hler]
      refine ⟨by omega, ⟨t, ?_⟩, ⟨tail2, ?_⟩, ?_⟩
      · rw [hfull, List.take_succ_cons, List.take_add, ← hler,
            decodeGo_cons, hloc]
        simp only
        have hpos : (rest.take d ++ rest2.take m).length -
            (rest2.take m).length = d := by
          simp only [List.length_append, List.length_take]
          omega
        rw [hpos]
        exact ht
      · rw [hfull, List.drop_succ_cons, hdrop]
        exact htail
      · rw [hfull, List.drop_succ_cons, hdrop]
        exact hdecc
  termination_by input.length
  decreasing_by
    have hle2 := decode_char_from_rest_le T b1 rest
    rw [hdc] at hle2
    simp only at hle2
    simp only [List.length_cons]
    omega

/-- C5: `decode` either returns the full text (input exhaustion is the
normal loop exit) or aborts at the first invalid sequence: on
`Err (n, e)` the prefix of length `n` decodes cleanly, the offending
bytes `e` sit literally at offset `n`, and the per-character decode
fails there with exactly `e`; and — on the reverse-table cells asserted
by the crate's tests — decoding
`93 FA 96 7B 32 3D 96 7B EE EE 83 40` fails at offset 8 with the pair
`EE EE`. -/
theorem decode_error_report (T : Tables) (input : List Nat) :
    (∀ n e, decode T input = .error (n, e) →
      (∃ t, decode T (input.take n) = .ok t) ∧
      (∃ tail2, input.drop n = e.bytes ++ tail2) ∧
      (decode_char T (input.drop n)).map Prod.fst = some (.error e)) ∧
    (T.rev 37 91 = '日' → T.rev 42 59 = '本' → T.rev 91 79 = sentinel →
      decode T [0x93, 0xFA, 0x96, 0x7B, 0x32, 0x3D, 0x96, 0x7B, 0xEE, 0xEE,
        0x83, 0x40] = .error (8, .two 0xEE 0xEE)) := by
  constructor
  · intro n e h
    obtain ⟨hp, h1, h2, h3⟩ := decodeGo_error_split T input 0 [] n e h
    rw [Nat.sub_zero] at h1 h2 h3
    exact ⟨h1, h2, h3⟩
  · intro hA hB hC
    have stepA : ∀ r, decode_char_from T 0x93 (0xFA :: r) = (.ok '日', r) := by
      intro r
      rw [dcf_cell T 0x93 0xFA r (by decide) (by decide),
          (by decide : cellRow 0x93 0xFA = 37),
          (by decide : cellCol 0x93 0xFA = 91), hA, if_neg (by decide)]
    have stepB : ∀ r, decode_char_from T 0x96 (0x7B :: r) = (.ok '本', r) := by
      intro r
      rw [dcf_cell T 0x96 0x7B r (by decide) (by decide),
          (by decide : cellRow 0x96 0x7B = 42),
          (by decide : cellCol 0x96 0x7B = 59), hB, if_neg (by decide)]
    have stepE : decode_char_from T 0xEE [0xEE, 0x83, 0x40]
        = (.error (.two 0xEE 0xEE), [0x83, 0x40]) := by
      rw [dcf_cell T 0xEE 0xEE _ (by decide) (by decide),
          (by decide : cellRow 0xEE 0xEE = 91),
          (by decide : cellCol 0xEE 0xEE = 79), hC, if_pos rfl]
    unfold decode
    rw [decodeGo_cons, stepA]
    simp only
    rw [decodeGo_cons, stepB]
    simp only
    rw [decodeGo_cons, dcf_ascii T 0x32 _ (by decide)]
    simp only
    rw [decodeGo_cons, dcf_ascii T 0x3D _ (by decide)]
    simp only
    rw [decodeGo_cons, stepB]
    simp only
    rw [decodeGo_cons, stepE]
    simp only
    simp [EncodedChar.bytes]

theorem decode_error_report_witness :
    decode Tdemo [0x93, 0xFA, 0x96, 0x7B, 0x32, 0x3D, 0x96, 0x7B, 0xEE, 0xEE,
      0x83, 0x40] = .error (8, .two 0xEE 0xEE) :=
  (decode_error_report Tdemo [0x93, 0xFA, 0x96, 0x7B, 0x32, 0x3D, 0x96, 0x7B,
    0xEE, 0xEE, 0x83, 0x40]).2 (by decide) (by decide) (by decide)

theorem encode_char_rep (T : Tables) (hrep : T.fwd '・' = some (0x81, 0x45)) :
    encode_char T '・' = some (.two 0x81 0x45) :=
  encode_char_tbl T '・' 0x81 0x45 (by decide) (by decide) hrep

/-- `decode_lossy` consumes one `encode_lossy` chunk at a time, turning
it back into the character (or the fallback `・`). -/
theorem decodeLossyGo_chunk (T : Tables) (hOk : FwdOk T)
    (hrep : T.fwd '・' = some (0x81, 0x45)) (c : Char) (r : List Nat)
    (out : List Char) :
    decodeLossyGo T (lossyBytes T c ++ r) out
      = decodeLossyGo T r (out ++ [lossyFix T c]) := by
  unfold lossyBytes lossyFix
  cases hc : encode_char T c with
  | none =>
    simp only [EncodedChar.REPLACEMENT, EncodedChar.bytes, List.cons_append,
      List.nil_append]
    obtain ⟨hl, ht, hcell, hns⟩ := hOk '・' 0x81 0x45 hrep
    rw [decodeLossyGo_cons, dcf_cell T 0x81 0x45 r hl ht, hcell, if_neg hns]
  | some e =>
    unfold encode_char at hc
    split_ifs at hc with h1 h2
    · injection hc with he
      subst he
      simp only [EncodedChar.bytes, List.cons_append, List.nil_append]
      rw [decodeLossyGo_cons, dcf_ascii T c.toNat r h1, Char.ofNat_toNat]
    · injection hc with he
      subst he
      simp only [EncodedChar.bytes, List.cons_append, List.nil_append]
      rw [decodeLossyGo_cons, dcf_kana T _ r (by omega) (by omega),
          (show kanaScalar (c.toNat - 0xFF61 + 0xA1) = c.toNat from by
            unfold kanaScalar
            omega), Char.ofNat_toNat]
    · cases hf : T.fwd c with
      | none =>
        rw [hf] at hc
        cases hc
      | some p =>
        obtain ⟨k1, k2⟩ := p
        rw [hf] at hc
        injection hc with he
        subst he
        obtain ⟨hl, ht, hcell, hns⟩ := hOk c k1 k2 hf
        simp only [EncodedChar.bytes, List.cons_append, List.nil_append]
        rw [decodeLossyGo_cons, dcf_cell T k1 k2 r hl ht, hcell, if_neg hns]

/-- The lossy round trip maps each character through `lossyFix`. -/
theorem decode_of_encode_lossy_go (T : Tables) (hOk : FwdOk T)
    (hrep : T.fwd '・' = some (0x81, 0x45)) (s : List Char) (out : List Char) :
    decodeLossyGo T (s.flatMap (lossyBytes T)) out
      = out ++ s.map (lossyFix T) := by
  induction s generalizing out with
  | nil => simp [decodeLossyGo_nil]
  | cons c cs ih =>
    rw [List.flatMap_cons, decodeLossyGo_chunk T hOk hrep, ih]
    simp

theorem lossyFix_idem (T : Tables) (hrep : T.fwd '・' = some (0x81, 0x45))
    (c : Char) : lossyFix T (lossyFix T c) = lossyFix T c := by
  unfold lossyFix
  cases hc : encode_char T c with
  | some e => rw [hc]
  | none => rw [encode_char_rep T hrep]

/-- C8: the composite `f = decode_lossy ∘ encode_lossy` is idempotent:
`f (f s) = f s` for every text, under the spec-asserted consistency of
the external forward table (`FwdOk`) and its replacement entry for `・`
(asserted by the crate's `encode_replacement` test). `f s` itself need
not equal `s`: unencodable characters become `・`, which is stable. -/
theorem lossy_round_trip_idem (T : Tables) (s : List Char)
    (hOk : FwdOk T) (hrep : T.fwd '・' = some (0x81, 0x45)) :
    decode_lossy T (encode_lossy T (decode_lossy T (encode_lossy T s)))
      = decode_lossy T (encode_lossy T s) := by
  have hf : ∀ u : List Char,
      decode_lossy T (encode_lossy T u) = u.map (lossyFix T) := by
    intro u
    unfold decode_lossy encode_lossy
    rw [show encodeLossyGo T u [] = u.flatMap (lossyBytes T) from by
          simpa using encodeLossyGo_acc T u []]
    simpa using decode_of_encode_lossy_go T hOk hrep u []
  rw [hf, hf, List.map_map,
      show lossyFix T ∘ lossyFix T = lossyFix T from
        funext (lossyFix_idem T hrep)]

theorem lossy_round_trip_idem_witness :
    decode_lossy Tdemo (encode_lossy Tdemo
        (decode_lossy Tdemo (encode_lossy Tdemo ['日', 'A', '₂'])))
      = decode_lossy Tdemo (encode_lossy Tdemo ['日', 'A', '₂']) :=
  lossy_round_trip_idem Tdemo ['日', 'A', '₂'] fwdOk_demo (by decide)

end FalcomSjis
